import Mathlib

/-!
Verification of the request-envelope construction of `HuaRunTongAPI`
(`script/huaruntong/huaruntong_wx/api.py`): canonical parameter signing,
AES-CBC payload encryption with PKCS7 padding and a fixed zero IV, RSA-OAEP
key wrapping, and the `_send_request` orchestration.

The Python code is shallowly embedded: Python values appearing in a parameter
map become the inductive `PVal`; mutable dicts become association lists with
CPython update semantics (`dictSet`); byte strings become `List Nat` with
values below 256; the exception behaviour of `json.dumps` becomes `Except`.
The external primitives (the MD5 compression function inside `hashlib.md5`,
the AES block permutation inside `AES.new(..).encrypt`, and the randomized
RSA-OAEP encryption of `PKCS1_OAEP`) are abstracted as function parameters;
the modes built on top of them (HMAC, CBC chaining, PKCS7, base64, canonical
sorting, JSON, percent-encoding, UTF-8) are embedded concretely.
-/

/-- Lower-case hexadecimal digit, as used by `hexdigest()` and by the
`ensure_ascii` escapes of `json.dumps`. -/
def hexDigitLower (n : Nat) : Char :=
  if n < 10 then Char.ofNat (48 + n) else Char.ofNat (87 + n)

/-- Upper-case hexadecimal digit, as used by `urllib.parse.quote`. -/
def hexDigitUpper (n : Nat) : Char :=
  if n < 10 then Char.ofNat (48 + n) else Char.ofNat (55 + n)

/-- Four lower-case hex digits (`\uXXXX` escapes). -/
def hex4 (n : Nat) : String :=
  String.mk [hexDigitLower (n / 4096 % 16), hexDigitLower (n / 256 % 16),
    hexDigitLower (n / 16 % 16), hexDigitLower (n % 16)]

/-- One character escaped as `json.dumps` (default `ensure_ascii=True`) does:
quote and backslash escaped, the usual control shorthands, every character
outside the printable ASCII range 0x20..0x7e as `\uXXXX` (with a surrogate
pair above 0xFFFF), everything else literally. -/
def jsonEscapeChar (c : Char) : String :=
  if c = '"' then "\\\""
  else if c = '\\' then "\\\\"
  else if c = '\n' then "\\n"
  else if c = '\r' then "\\r"
  else if c = '\t' then "\\t"
  else if c.toNat = 8 then "\\b"
  else if c.toNat = 12 then "\\f"
  else if c.toNat < 32 ∨ 126 < c.toNat then
    if c.toNat < 65536 then "\\u" ++ hex4 c.toNat
    else "\\u" ++ hex4 (55296 + (c.toNat - 65536) / 1024)
      ++ "\\u" ++ hex4 (56320 + (c.toNat - 65536) % 1024)
  else String.singleton c

/-- A JSON string literal: the escaped characters between double quotes. -/
def jsonQuote (s : String) : String :=
  "\"" ++ String.join (s.data.map jsonEscapeChar) ++ "\""

/-- UTF-8 encoding of one character (the byte values of `str.encode('utf-8')`). -/
def utf8EncodeChar (c : Char) : List Nat :=
  let n := c.toNat
  if n < 128 then [n]
  else if n < 2048 then [192 + n / 64, 128 + n % 64]
  else if n < 65536 then [224 + n / 4096, 128 + n / 64 % 64, 128 + n % 64]
  else [240 + n / 262144, 128 + n / 4096 % 64, 128 + n / 64 % 64, 128 + n % 64]

/-- `s.encode('utf-8')` as a byte list. -/
def strToBytes (s : String) : List Nat :=
  (s.data.map utf8EncodeChar).flatten

/-- One character percent-encoded as `urllib.parse.quote(_, safe='')`:
ASCII letters, digits and `_.-~` kept, every other character's UTF-8 bytes
emitted as upper-case `%XX`. -/
def urlQuoteChar (c : Char) : String :=
  if c.isAlpha ∨ c.isDigit ∨ c = '_' ∨ c = '.' ∨ c = '-' ∨ c = '~' then
    String.singleton c
  else
    String.join ((utf8EncodeChar c).map
      (fun b => "%" ++ String.mk [hexDigitUpper (b / 16), hexDigitUpper (b % 16)]))

/-- `urllib.parse.quote(s, safe='')`. -/
def urlQuote (s : String) : String :=
  String.join (s.data.map urlQuoteChar)

/-- A Python value that can sit in the parameter map handed to
`_crypto_data`: `None`, a string, an int, a bool, a list, a dict with string
keys, or an arbitrary object that `json.dumps` cannot serialize (`obj r`
carries the text `str()` would produce for it). -/
inductive PVal where
  | null : PVal
  | str : String → PVal
  | int : Int → PVal
  | bool : Bool → PVal
  | list : List PVal → PVal
  | dict : List (String × PVal) → PVal
  | obj : String → PVal

mutual

/-- `json.dumps(v, separators=(',', ':'))`: compact JSON, `Except.error` when
the value contains a non-serializable object (Python raises `TypeError`). -/
def dumpVal : PVal → Except Unit String
  | .null => .ok "null"
  | .str s => .ok (jsonQuote s)
  | .int n => .ok (toString n)
  | .bool b => .ok (if b then "true" else "false")
  | .list xs =>
    match dumpElems xs with
    | .error e => .error e
    | .ok parts => .ok ("[" ++ String.intercalate "," parts ++ "]")
  | .dict kvs =>
    match dumpPairs kvs with
    | .error e => .error e
    | .ok parts => .ok ("\x7b" ++ String.intercalate "," parts ++ "\x7d")
  | .obj _ => .error ()

/-- Serialization of the elements of a JSON array, left to right. -/
def dumpElems : List PVal → Except Unit (List String)
  | [] => .ok []
  | v :: rest =>
    match dumpVal v with
    | .error e => .error e
    | .ok s =>
      match dumpElems rest with
      | .error e => .error e
      | .ok tl => .ok (s :: tl)

/-- Serialization of the `"key":value` members of a JSON object, in the
dict's own order — `json.dumps` does not sort keys. -/
def dumpPairs : List (String × PVal) → Except Unit (List String)
  | [] => .ok []
  | (k, v) :: rest =>
    match dumpVal v with
    | .error e => .error e
    | .ok s =>
      match dumpPairs rest with
      | .error e => .error e
      | .ok tl => .ok ((jsonQuote k ++ ":" ++ s) :: tl)

end

/-- One iteration of the signing loop of `_crypto_data` (lines 76-81):
`None` values are skipped, dict/list values are serialized to compact JSON
(which can raise), every other value is rendered by the f-string as Python
`str()` would, and the entry becomes `key=value`. -/
def entryPart : String × PVal → Except Unit (Option String)
  | (_, .null) => .ok none
  | (k, .dict kvs) =>
    match dumpVal (.dict kvs) with
    | .error e => .error e
    | .ok s => .ok (some (k ++ "=" ++ s))
  | (k, .list xs) =>
    match dumpVal (.list xs) with
    | .error e => .error e
    | .ok s => .ok (some (k ++ "=" ++ s))
  | (k, .str s) => .ok (some (k ++ "=" ++ s))
  | (k, .int n) => .ok (some (k ++ "=" ++ toString n))
  | (k, .bool b) => .ok (some (k ++ "=" ++ if b then "True" else "False"))
  | (k, .obj r) => .ok (some (k ++ "=" ++ r))

/-- The `parts` list built by the signing loop, in iteration order. -/
def buildParts : List (String × PVal) → Except Unit (List String)
  | [] => .ok []
  | e :: rest =>
    match entryPart e with
    | .error er => .error er
    | .ok o =>
      match buildParts rest with
      | .error er => .error er
      | .ok tl => .ok (o.toList ++ tl)

/-- Whether a value is Python `None` (the test of line 77). -/
def isNullV : PVal → Bool
  | .null => true
  | _ => false

/-- The contribution of one entry to the `parts` list: `none` when the entry
is skipped (null value) or when its serialization fails. -/
def partOf (e : String × PVal) : Option String :=
  match entryPart e with
  | .ok o => o
  | .error _ => none

/-- Lexicographic comparison of char lists by Unicode code point — the order
Python's `sorted` uses on strings. -/
def charListLe : List Char → List Char → Bool
  | [], _ => true
  | _ :: _, [] => false
  | a :: as, b :: bs =>
    if a.toNat < b.toNat then true
    else if b.toNat < a.toNat then false
    else charListLe as bs

/-- String comparison underlying Python's `sorted` on `parts`. -/
def strLe (a b : String) : Bool := charListLe a.data b.data

/-- `sorted(parts)`: the unique sorted rearrangement under `strLe`. -/
def sortStrings (l : List String) : List String :=
  List.insertionSort (fun a b => strLe a b = true) l

/-- Lines 75-82 of `_crypto_data`: build the `key=value` parts, sort them
lexicographically by the full string and join with `&`. -/
def canonicalize (l : List (String × PVal)) : Except Unit String :=
  match buildParts l with
  | .error e => .error e
  | .ok parts => .ok (String.intercalate "&" (sortStrings parts))

/-- HMAC (RFC 2104) with a 64-byte block, over an abstract digest function
`md5`, as `hmac.new(key, msg, hashlib.md5)` computes it. -/
def hmacMd5 (md5 : List Nat → List Nat) (key msg : List Nat) : List Nat :=
  let key0 := if 64 < key.length then md5 key else key
  let keyBlock := key0 ++ List.replicate (64 - key0.length) 0
  let ipadded := keyBlock.map (fun b => Nat.xor b 54)
  let opadded := keyBlock.map (fun b => Nat.xor b 92)
  md5 (opadded ++ md5 (ipadded ++ msg))

/-- `.hexdigest()`: lower-case hex rendering of a byte list. -/
def hexOfBytes (bs : List Nat) : String :=
  String.join (bs.map (fun b => String.mk [hexDigitLower (b / 16 % 16), hexDigitLower (b % 16)]))

/-- Lines 83-87: the signature is the lower-case hex HMAC-MD5 digest of the
canonical string, keyed by the UTF-8 bytes of the shared secret. -/
def signatureOf (md5 : List Nat → List Nat) (secret msg : String) : String :=
  hexOfBytes (hmacMd5 md5 (strToBytes secret) (strToBytes msg))

/-- `HuaRunTongAPI.SECRET`. -/
def SECRET : String := "c274fc67-19f9-47ba-bb84-585a2e3a1f6a"

/-- `HuaRunTongAPI.APP_ID`. -/
def APP_ID : String := "API_AUTH_WEB"

/-- CPython `d[k] = v`: replace in place if the key exists (keeping its
insertion position), otherwise append at the end. -/
def dictSet (l : List (String × PVal)) (k : String) (v : PVal) : List (String × PVal) :=
  if l.any (fun e => decide (e.1 = k)) then
    l.map (fun e => if e.1 = k then (k, v) else e)
  else l ++ [(k, v)]

/-- `d.get(k)`: the value of the first entry with key `k`, if any. -/
def dictLookup (l : List (String × PVal)) (k : String) : Option PVal :=
  match l.find? (fun e => decide (e.1 = k)) with
  | some e => some e.2
  | none => none

/-- `HuaRunTongAPI._pad_pkcs7` (lines 62-65): append
`block_size - len % block_size` bytes, each equal to that count. -/
def padPkcs7 (data : List Nat) (blockSize : Nat) : List Nat :=
  let paddingLen := blockSize - data.length % blockSize
  data ++ List.replicate paddingLen paddingLen

/-- Modelled from the spec (the repository never unpads; the remote service
does): strip the number of trailing bytes indicated by the last byte. -/
def unpad (d : List Nat) : List Nat :=
  d.take (d.length - d.getLastD 0)

/-- Pointwise XOR of two byte lists (CBC chaining). -/
def xorBytes (a b : List Nat) : List Nat :=
  List.zipWith (fun x y => x ^^^ y) a b

/-- Fuel-driven split into 16-byte blocks (fuel makes the recursion
structural so that concrete inputs evaluate). -/
def toBlocksF : Nat → List Nat → List (List Nat)
  | _, [] => []
  | 0, _ :: _ => []
  | fuel+1, a :: rest => ((a :: rest).take 16) :: toBlocksF fuel ((a :: rest).drop 16)

/-- Split a byte list into consecutive 16-byte blocks. -/
def toBlocks (l : List Nat) : List (List Nat) := toBlocksF l.length l

/-- CBC encryption over a block list: each plaintext block is XORed with the
previous ciphertext block (initially the IV) and sent through the block
permutation `enc`. -/
def cbcEncBlocks (enc : List Nat → List Nat) : List Nat → List (List Nat) → List (List Nat)
  | _, [] => []
  | prev, b :: rest =>
    let c := enc (xorBytes prev b)
    c :: cbcEncBlocks enc c rest

/-- CBC decryption over a block list. -/
def cbcDecBlocks (dec : List Nat → List Nat) : List Nat → List (List Nat) → List (List Nat)
  | _, [] => []
  | prev, c :: rest => xorBytes prev (dec c) :: cbcDecBlocks dec c rest

/-- `AES.new(key, MODE_CBC, iv).encrypt(data)` with `enc` the keyed AES block
permutation. -/
def cbcEncryptBytes (enc : List Nat → List Nat) (iv data : List Nat) : List Nat :=
  (cbcEncBlocks enc iv (toBlocks data)).flatten

/-- CBC decryption of a byte string with `dec` the inverse block permutation. -/
def cbcDecryptBytes (dec : List Nat → List Nat) (iv data : List Nat) : List Nat :=
  (cbcDecBlocks dec iv (toBlocks data)).flatten

/-- The base64 alphabet. -/
def b64Char (d : Nat) : Char :=
  if d < 26 then Char.ofNat (65 + d)
  else if d < 52 then Char.ofNat (97 + (d - 26))
  else if d < 62 then Char.ofNat (48 + (d - 52))
  else if d = 62 then '+'
  else '/'

/-- Inverse of the base64 alphabet. -/
def b64CharDec (c : Char) : Nat :=
  if 65 ≤ c.toNat ∧ c.toNat ≤ 90 then c.toNat - 65
  else if 97 ≤ c.toNat ∧ c.toNat ≤ 122 then c.toNat - 97 + 26
  else if 48 ≤ c.toNat ∧ c.toNat ≤ 57 then c.toNat - 48 + 52
  else if c = '+' then 62
  else 63

/-- `base64.b64encode`: three bytes become four alphabet characters, a final
group of one or two bytes is padded with `=`. -/
def b64EncodeBytes : List Nat → List Char
  | [] => []
  | [a] => [b64Char (a / 4), b64Char (a % 4 * 16), '=', '=']
  | [a, b] => [b64Char (a / 4), b64Char (a % 4 * 16 + b / 16), b64Char (b % 16 * 4), '=']
  | a :: b :: c :: rest =>
    b64Char (a / 4) :: b64Char (a % 4 * 16 + b / 16) :: b64Char (b % 16 * 4 + c / 64)
      :: b64Char (c % 64) :: b64EncodeBytes rest

/-- `base64.b64encode(..).decode('utf-8')`. -/
def b64Encode (bs : List Nat) : String := String.mk (b64EncodeBytes bs)

/-- `base64.b64decode` on well-formed input: four characters yield three
bytes, trailing `=` padding reduces the final group. -/
def b64DecodeChars : List Char → List Nat
  | c0 :: c1 :: c2 :: c3 :: rest =>
    if c2 = '=' then [b64CharDec c0 * 4 + b64CharDec c1 / 16]
    else if c3 = '=' then
      [b64CharDec c0 * 4 + b64CharDec c1 / 16,
       b64CharDec c1 % 16 * 16 + b64CharDec c2 / 4]
    else
      (b64CharDec c0 * 4 + b64CharDec c1 / 16)
        :: (b64CharDec c1 % 16 * 16 + b64CharDec c2 / 4)
        :: (b64CharDec c2 % 4 * 64 + b64CharDec c3)
        :: b64DecodeChars rest
  | _ => []

/-- `base64.b64decode` of a string. -/
def b64Decode (s : String) : List Nat := b64DecodeChars s.data

/-- The observable effects of one `_crypto_data` run, in program order:
`clockRead i` is the i-th `time.time()` call, `keyGen` is `os.urandom(16)`,
`cipherCreate` is `AES.new(key, MODE_CBC, iv)`, `encrypt` is
`cipher_aes.encrypt`, `rsaEncrypt` is `cipher_rsa.encrypt(aes_key)`. -/
inductive Event where
  | clockRead : Nat → Event
  | keyGen : List Nat → Event
  | cipherCreate : List Nat → List Nat → Event
  | encrypt : Event
  | rsaEncrypt : Event
deriving DecidableEq

/-- The `{"key": ..., "data": ...}` envelope returned by `_crypto_data`. -/
structure Envelope where
  key : String
  data : String
deriving DecidableEq

/-- Result of one `_crypto_data` run: the returned envelope (or the raised
serialization error), the effect trace, and the final state of the mutable
`params` dict (mutated up to the point of failure). -/
structure CryptoOutcome where
  result : Except Unit Envelope
  events : List Event
  finalParams : List (String × PVal)

/-- Lines 69-72 of `_crypto_data`: inject `apiPath` (percent-encoded),
`appId` and the millisecond timestamp (the single `time.time()` reading,
modelled as `clock 0`) into the caller's dict. -/
def assembleParams (clock : Nat → Int) (params0 : List (String × PVal))
    (apiPath : String) : List (String × PVal) :=
  let p1 := dictSet params0 "apiPath" (.str (urlQuote apiPath))
  let p2 := dictSet p1 "appId" (.str APP_ID)
  dictSet p2 "timestamp" (.int (clock 0))

/-- `HuaRunTongAPI._crypto_data`, parameterized by the abstract crypto
primitives (`md5` digest, keyed AES block permutation `aesEnc`, randomized
OAEP encryption `rsaEnc` applied to its random seed and the message), the
millisecond clock, and the bytes `os.urandom(16)` returns for this run.
Program order of effects follows the source: the clock is read during
parameter assembly; the AES key is generated and the CBC cipher created
*before* `json.dumps(params)` runs, so a serialization failure there (the
second `match` branch) happens after both. -/
def cryptoData (md5 : List Nat → List Nat) (aesEnc : List Nat → List Nat → List Nat)
    (rsaEnc : List Nat → List Nat → List Nat) (clock : Nat → Int)
    (aesKey oaepSeed : List Nat) (params0 : List (String × PVal))
    (apiPath : String) : CryptoOutcome :=
  let params := assembleParams clock params0 apiPath
  match canonicalize params with
  | .error e => ⟨.error e, [.clockRead 0], params⟩
  | .ok signStr =>
    let signed := dictSet params "signature" (.str (signatureOf md5 SECRET signStr))
    let iv : List Nat := List.replicate 16 0
    match dumpVal (.dict signed) with
    | .error e => ⟨.error e, [.clockRead 0, .keyGen aesKey, .cipherCreate aesKey iv], signed⟩
    | .ok js =>
      let padded := padPkcs7 (strToBytes js) 16
      let encryptedData := cbcEncryptBytes (aesEnc aesKey) iv padded
      let dataB64 := b64Encode encryptedData
      let encryptedKey := rsaEnc oaepSeed aesKey
      let keyB64 := b64Encode encryptedKey
      ⟨.ok ⟨keyB64, dataB64⟩,
        [.clockRead 0, .keyGen aesKey, .cipherCreate aesKey iv, .encrypt, .rsaEncrypt],
        signed⟩

/-- `HuaRunTongAPI._send_request` (lines 120-123) with the heap of dict
objects made explicit: `store` is the heap, `ref` the caller's payload dict.
`payload.copy()` allocates a fresh cell at index `store.length`; only that
copy is handed to `_crypto_data` and mutated by it. Returns the request
result together with the final heap. -/
def sendRequestStore (md5 : List Nat → List Nat) (aesEnc : List Nat → List Nat → List Nat)
    (rsaEnc : List Nat → List Nat → List Nat) (clock : Nat → Int)
    (aesKey oaepSeed : List Nat) (store : List (List (String × PVal)))
    (ref : Nat) (apiPath : String) :
    Except Unit Envelope × List (List (String × PVal)) :=
  let payload := store.getD ref []
  let store1 := store ++ [payload]
  let o := cryptoData md5 aesEnc rsaEnc clock aesKey oaepSeed payload apiPath
  (o.result, store1.set store.length o.finalParams)

/-- Degenerate digest standing in for MD5 in concrete witnesses. -/
def stubHash : List Nat → List Nat := fun _ => List.replicate 16 0

/-- Identity block permutation standing in for keyed AES in witnesses. -/
def stubBlock : List Nat → List Nat → List Nat := fun _ b => b

/-- Identity (unkeyed) block permutation: its own inverse. -/
def stubBlockDec : List Nat → List Nat := fun b => b

/-- Length-prefixed concatenation standing in for OAEP in witnesses: the
seed is recoverable, so encryption is injective in the seed and decryptable. -/
def stubRsa : List Nat → List Nat → List Nat := fun s m => s.length :: (s ++ m)

/-- Decryption matching `stubRsa`. -/
def stubRsaDec : List Nat → Option (List Nat)
  | [] => none
  | n :: rest => some (rest.drop n)

/-- Recognizes the clock-read events of a trace. -/
def isClockRead : Event → Bool
  | .clockRead _ => true
  | _ => false

/-- The envelope of a successful outcome (dummy envelope otherwise). -/
def okEnvelope (o : CryptoOutcome) : Envelope :=
  match o.result with
  | .ok e => e
  | .error _ => ⟨"", ""⟩

/-- The payload of a successful serialization (empty string otherwise). -/
def okString (e : Except Unit String) : String :=
  match e with
  | .ok s => s
  | .error _ => ""

/-- A concrete run used by witnesses: stub primitives, zero clock, zero key,
OAEP seed `[0]`, empty payload, empty path. -/
def demoOutcomeSeedA : CryptoOutcome :=
  cryptoData stubHash stubBlock stubRsa (fun _ => 0) (List.replicate 16 0) [0] [] ""

/-- The same run with OAEP seed `[1]`. -/
def demoOutcomeSeedB : CryptoOutcome :=
  cryptoData stubHash stubBlock stubRsa (fun _ => 0) (List.replicate 16 0) [1] [] ""

theorem charListLe_refl : ∀ a : List Char, charListLe a a = true
  | [] => rfl
  | a :: as => by simp [charListLe, charListLe_refl as]

theorem charListLe_total : ∀ a b : List Char, charListLe a b = true ∨ charListLe b a = true
  | [], _ => Or.inl rfl
  | _ :: _, [] => Or.inr rfl
  | a :: as, b :: bs => by
    rcases Nat.lt_trichotomy a.toNat b.toNat with h | h | h
    · left; simp [charListLe, h]
    · have hab : ¬ a.toNat < b.toNat := by omega
      have hba : ¬ b.toNat < a.toNat := by omega
      simpa [charListLe, hab, hba] using charListLe_total as bs
    · right; simp [charListLe, h]

theorem charListLe_trans : ∀ a b c : List Char,
    charListLe a b = true → charListLe b c = true → charListLe a c = true
  | [], _, _ => fun _ _ => rfl
  | _ :: _, [], _ => fun h1 _ => by simp [charListLe] at h1
  | _ :: _, _ :: _, [] => fun _ h2 => by simp [charListLe] at h2
  | a :: as, b :: bs, c :: cs => fun h1 h2 => by
    simp only [charListLe] at h1 h2 ⊢
    by_cases hab : a.toNat < b.toNat <;> by_cases hbc : b.toNat < c.toNat
    · simp [show a.toNat < c.toNat by omega]
    · by_cases hcb : c.toNat < b.toNat
      · rw [if_neg hbc, if_pos hcb] at h2; exact absurd h2 (by simp)
      · have : b.toNat = c.toNat := by omega
        simp [show a.toNat < c.toNat by omega]
    · by_cases hba : b.toNat < a.toNat
      · rw [if_neg hab, if_pos hba] at h1; exact absurd h1 (by simp)
      · have : a.toNat = b.toNat := by omega
        simp [show a.toNat < c.toNat by omega]
    · by_cases hba : b.toNat < a.toNat
      · rw [if_neg hab, if_pos hba] at h1; exact absurd h1 (by simp)
      · by_cases hcb : c.toNat < b.toNat
        · rw [if_neg hbc, if_pos hcb] at h2; exact absurd h2 (by simp)
        · rw [if_neg hab, if_neg hba] at h1
          rw [if_neg hbc, if_neg hcb] at h2
          have hac : ¬ a.toNat < c.toNat := by omega
          have hca : ¬ c.toNat < a.toNat := by omega
          rw [if_neg hac, if_neg hca]
          exact charListLe_trans as bs cs h1 h2

theorem charListLe_antisymm : ∀ a b : List Char,
    charListLe a b = true → charListLe b a = true → a = b
  | [], [] => fun _ _ => rfl
  | [], _ :: _ => fun _ h2 => by simp [charListLe] at h2
  | _ :: _, [] => fun h1 _ => by simp [charListLe] at h1
  | a :: as, b :: bs => fun h1 h2 => by
    simp only [charListLe] at h1 h2
    by_cases hab : a.toNat < b.toNat
    · have hba : ¬ b.toNat < a.toNat := by omega
      rw [if_neg hba, if_pos hab] at h2; exact absurd h2 (by simp)
    · by_cases hba : b.toNat < a.toNat
      · rw [if_neg hab, if_pos hba] at h1; exact absurd h1 (by simp)
      · rw [if_neg hab, if_neg hba] at h1
        rw [if_neg hba, if_neg hab] at h2
        have hn : a.toNat = b.toNat := by omega
        have hc : a = b := Char.ext (UInt32.ext hn)
        rw [hc, charListLe_antisymm as bs h1 h2]

theorem strLe_total (a b : String) : strLe a b = true ∨ strLe b a = true :=
  charListLe_total a.data b.data

theorem strLe_trans (a b c : String) (h1 : strLe a b = true) (h2 : strLe b c = true) :
    strLe a c = true :=
  charListLe_trans a.data b.data c.data h1 h2

theorem strLe_antisymm (a b : String) (h1 : strLe a b = true) (h2 : strLe b a = true) :
    a = b :=
  String.toList_inj.mp (charListLe_antisymm a.data b.data h1 h2)

/-- Sorting is invariant under permutation of the input: the sorted result
is the unique `strLe`-ordered rearrangement. -/
theorem sortStrings_perm_eq {p₁ p₂ : List String} (h : p₁.Perm p₂) :
    sortStrings p₁ = sortStrings p₂ := by
  haveI : IsTotal String (fun a b => strLe a b = true) := ⟨strLe_total⟩
  haveI : IsTrans String (fun a b => strLe a b = true) := ⟨strLe_trans⟩
  haveI : IsAntisymm String (fun a b => strLe a b = true) := ⟨strLe_antisymm⟩
  exact List.eq_of_perm_of_sorted
    ((List.perm_insertionSort _ p₁).trans (h.trans (List.perm_insertionSort _ p₂).symm))
    (List.sorted_insertionSort _ p₁) (List.sorted_insertionSort _ p₂)

theorem buildParts_ok (l : List (String × PVal)) (h : ∀ e ∈ l, entryPart e ≠ Except.error ()) :
    buildParts l = .ok (l.filterMap partOf) := by
  induction l with
  | nil => rfl
  | cons e rest ih =>
    have he := h e (List.mem_cons_self e rest)
    have hr : buildParts rest = .ok (rest.filterMap partOf) :=
      ih (fun x hx => h x (List.mem_cons_of_mem e hx))
    cases hp : entryPart e with
    | error er => cases er; exact absurd hp he
    | ok o =>
      have hpo : partOf e = o := by simp [partOf, hp]
      simp only [buildParts, hp, hr, List.filterMap_cons, hpo]
      cases o <;> simp

theorem buildParts_error (l : List (String × PVal)) (e : String × PVal) (he : e ∈ l)
    (h : entryPart e = .error ()) : buildParts l = .error () := by
  induction l with
  | nil => cases he
  | cons a rest ih =>
    rcases List.mem_cons.mp he with rfl | hm
    · simp [buildParts, h]
    · have hr := ih hm
      cases hp : entryPart a with
      | error er => cases er; simp [buildParts, hp]
      | ok o => simp [buildParts, hp, hr]

/-- Canonicalization only depends on the multiset of entries: any two
insertion orders of the same parameter mapping canonicalize identically. -/
theorem canonicalize_perm (l₁ l₂ : List (String × PVal)) (h : l₁.Perm l₂) :
    canonicalize l₁ = canonicalize l₂ := by
  by_cases hall : ∀ e ∈ l₁, entryPart e ≠ Except.error ()
  · have hall₂ : ∀ e ∈ l₂, entryPart e ≠ Except.error () :=
      fun e he => hall e (h.mem_iff.mpr he)
    simp only [canonicalize, buildParts_ok l₁ hall, buildParts_ok l₂ hall₂]
    rw [sortStrings_perm_eq (h.filterMap partOf)]
  · push_neg at hall
    obtain ⟨e, he, hne⟩ := hall
    simp only [canonicalize, buildParts_error l₁ e he hne,
      buildParts_error l₂ e (h.mem_iff.mp he) hne]

theorem dictLookup_cons (e : String × PVal) (rest : List (String × PVal)) (k : String) :
    dictLookup (e :: rest) k = if e.1 = k then some e.2 else dictLookup rest k := by
  by_cases h : e.1 = k
  · rw [dictLookup, List.find?_cons_of_pos _ (by simpa using h), if_pos h]
  · rw [dictLookup, List.find?_cons_of_neg _ (by simpa using h), if_neg h]
    rfl

theorem dictLookup_map_set (l : List (String × PVal)) (k : String) (v : PVal)
    (hany : l.any (fun e => decide (e.1 = k)) = true) :
    dictLookup (l.map (fun e => if e.1 = k then (k, v) else e)) k = some v := by
  induction l with
  | nil => cases hany
  | cons e rest ih =>
    by_cases h : e.1 = k
    · simp only [List.map_cons, if_pos h]
      rw [dictLookup_cons]
      simp
    · simp only [List.map_cons, if_neg h]
      rw [dictLookup_cons, if_neg h]
      apply ih
      simpa [h] using hany

theorem dictLookup_append_single (l : List (String × PVal)) (k : String) (v : PVal)
    (hnone : l.any (fun e => decide (e.1 = k)) = false) :
    dictLookup (l ++ [(k, v)]) k = some v := by
  induction l with
  | nil => rw [List.nil_append, dictLookup_cons]; simp
  | cons e rest ih =>
    simp only [List.any_cons, Bool.or_eq_false_iff] at hnone
    rw [List.cons_append, dictLookup_cons, if_neg (by simpa using hnone.1)]
    exact ih hnone.2

theorem dictLookup_dictSet_self (l : List (String × PVal)) (k : String) (v : PVal) :
    dictLookup (dictSet l k v) k = some v := by
  unfold dictSet; split
  case isTrue h => exact dictLookup_map_set l k v h
  case isFalse h =>
    exact dictLookup_append_single l k v (by simp only [Bool.not_eq_true] at h; exact h)

theorem dictLookup_map_set_ne (l : List (String × PVal)) (k' : String) (v' : PVal)
    (k : String) (hne : k ≠ k') :
    dictLookup (l.map (fun e => if e.1 = k' then (k', v') else e)) k = dictLookup l k := by
  induction l with
  | nil => rfl
  | cons e rest ih =>
    by_cases h : e.1 = k'
    · simp only [List.map_cons, if_pos h]
      rw [dictLookup_cons, dictLookup_cons, if_neg (by simpa using Ne.symm hne),
        if_neg (by rw [h]; exact Ne.symm hne)]
      exact ih
    · simp only [List.map_cons, if_neg h]
      rw [dictLookup_cons, dictLookup_cons]
      by_cases hk : e.1 = k
      · rw [if_pos hk, if_pos hk]
      · rw [if_neg hk, if_neg hk]; exact ih

theorem dictLookup_append_ne (l : List (String × PVal)) (k' : String) (v' : PVal)
    (k : String) (hne : k ≠ k') :
    dictLookup (l ++ [(k', v')]) k = dictLookup l k := by
  induction l with
  | nil => rw [List.nil_append, dictLookup_cons, if_neg (Ne.symm hne)]
  | cons e rest ih =>
    rw [List.cons_append, dictLookup_cons, dictLookup_cons]
    by_cases hk : e.1 = k
    · rw [if_pos hk, if_pos hk]
    · rw [if_neg hk, if_neg hk]; exact ih

theorem dictLookup_dictSet_ne (l : List (String × PVal)) (k' : String) (v' : PVal)
    (k : String) (hne : k ≠ k') :
    dictLookup (dictSet l k' v') k = dictLookup l k := by
  unfold dictSet; split
  · exact dictLookup_map_set_ne l k' v' k hne
  · exact dictLookup_append_ne l k' v' k hne

theorem mem_dictSet_self (l : List (String × PVal)) (k : String) (v : PVal) :
    (k, v) ∈ dictSet l k v := by
  unfold dictSet; split
  case isTrue h =>
    rw [List.any_eq_true] at h
    obtain ⟨e, he, hk⟩ := h
    rw [decide_eq_true_eq] at hk
    exact List.mem_map.mpr ⟨e, he, by simp [hk]⟩
  case isFalse h => exact List.mem_append_right _ (List.mem_singleton_self _)

theorem mem_dictSet_of_ne (l : List (String × PVal)) (k' : String) (v' : PVal)
    {k : String} {v : PVal} (hne : k ≠ k') (h : (k, v) ∈ l) :
    (k, v) ∈ dictSet l k' v' := by
  unfold dictSet; split
  · exact List.mem_map.mpr ⟨(k, v), h, by simp [hne]⟩
  · exact List.mem_append_left _ h

theorem padPkcs7_length (data : List Nat) :
    (padPkcs7 data 16).length = data.length + (16 - data.length % 16) := by
  simp [padPkcs7]

theorem padPkcs7_length_mod (data : List Nat) : (padPkcs7 data 16).length % 16 = 0 := by
  rw [padPkcs7_length]
  omega

theorem padPkcs7_full_block (data : List Nat) (h : data.length % 16 = 0) :
    padPkcs7 data 16 = data ++ List.replicate 16 16 := by
  simp [padPkcs7, h]

theorem padPkcs7_getLastD (data : List Nat) :
    (padPkcs7 data 16).getLastD 0 = 16 - data.length % 16 := by
  simp only [padPkcs7]
  obtain ⟨m, hm⟩ : ∃ m, 16 - data.length % 16 = m + 1 := ⟨15 - data.length % 16, by omega⟩
  rw [hm, List.replicate_succ', ← List.append_assoc]
  exact List.getLastD_concat _ _ _

theorem unpad_padPkcs7 (data : List Nat) : unpad (padPkcs7 data 16) = data := by
  rw [unpad, padPkcs7_getLastD, padPkcs7_length]
  have h : data.length + (16 - data.length % 16) - (16 - data.length % 16) = data.length := by
    omega
  rw [h]
  simp only [padPkcs7]
  exact List.take_left data _

/-- All entries of a byte list are actual byte values. -/
def ByteBounded (l : List Nat) : Prop := ∀ x ∈ l, x < 256

theorem char_toNat_lt (c : Char) : c.toNat < 1114112 := by
  have he : c.toNat = c.val.toNat := rfl
  rcases c.valid with h | ⟨h1, h2⟩
  · have hv : c.val.toNat < 55296 := h
    omega
  · have hv : c.val.toNat < 1114112 := h2
    omega

theorem utf8EncodeChar_bounded (c : Char) : ByteBounded (utf8EncodeChar c) := by
  intro x hx
  have hc := char_toNat_lt c
  simp only [utf8EncodeChar] at hx
  split_ifs at hx with h1 h2 h3
  · simp at hx; omega
  · simp at hx; rcases hx with rfl | rfl <;> omega
  · simp at hx; rcases hx with rfl | rfl | rfl <;> omega
  · simp at hx; rcases hx with rfl | rfl | rfl | rfl <;> omega

theorem strToBytes_bounded (s : String) : ByteBounded (strToBytes s) := by
  intro x hx
  simp only [strToBytes, List.mem_flatten] at hx
  obtain ⟨l, hl, hxl⟩ := hx
  obtain ⟨c, _, rfl⟩ := List.mem_map.mp hl
  exact utf8EncodeChar_bounded c x hxl

theorem padPkcs7_bounded (data : List Nat) (h : ByteBounded data) :
    ByteBounded (padPkcs7 data 16) := by
  intro x hx
  simp only [padPkcs7, List.mem_append] at hx
  rcases hx with hx | hx
  · exact h x hx
  · have := List.eq_of_mem_replicate hx
    omega

theorem toBlocksF_fuel : ∀ (f1 : Nat) (l : List Nat) (f2 : Nat),
    l.length ≤ f1 → l.length ≤ f2 → toBlocksF f1 l = toBlocksF f2 l := by
  intro f1
  induction f1 with
  | zero =>
    intro l f2 h1 _
    have hl : l = [] := List.eq_nil_of_length_eq_zero (by omega)
    subst hl
    cases f2 <;> rfl
  | succ g ih =>
    intro l f2 h1 h2
    cases l with
    | nil => cases f2 <;> rfl
    | cons a rest =>
      cases f2 with
      | zero => simp at h2
      | succ m =>
        simp only [toBlocksF]
        congr 1
        apply ih
        · simp only [List.length_drop, List.length_cons] at *
          omega
        · simp only [List.length_drop, List.length_cons] at *
          omega

theorem toBlocks_cons (a : Nat) (l : List Nat) :
    toBlocks (a :: l) = ((a :: l).take 16) :: toBlocks ((a :: l).drop 16) := by
  rw [toBlocks, toBlocks]
  simp only [List.length_cons, toBlocksF]
  congr 1
  apply toBlocksF_fuel
  · simp only [List.length_drop, List.length_cons]
    omega
  · exact le_rfl

theorem flatten_toBlocks_aux : ∀ (n : Nat) (l : List Nat), l.length ≤ n →
    (toBlocks l).flatten = l := by
  intro n
  induction n with
  | zero =>
    intro l h
    have hl : l = [] := List.eq_nil_of_length_eq_zero (by omega)
    subst hl
    rfl
  | succ m ih =>
    intro l h
    cases l with
    | nil => rfl
    | cons a rest =>
      rw [toBlocks_cons, List.flatten_cons,
        ih _ (by simp only [List.length_drop, List.length_cons] at *; omega)]
      exact List.take_append_drop 16 (a :: rest)

theorem flatten_toBlocks (l : List Nat) : (toBlocks l).flatten = l :=
  flatten_toBlocks_aux l.length l le_rfl

theorem toBlocks_props : ∀ (n : Nat) (l : List Nat), l.length ≤ n → l.length % 16 = 0 →
    ByteBounded l → ∀ b ∈ toBlocks l, b.length = 16 ∧ ByteBounded b := by
  intro n
  induction n with
  | zero =>
    intro l h _ _ b hb
    have hl : l = [] := List.eq_nil_of_length_eq_zero (by omega)
    subst hl
    cases hb
  | succ m ih =>
    intro l hlen hmod hbd b hb
    cases l with
    | nil => cases hb
    | cons a rest =>
      rw [toBlocks_cons] at hb
      have h16 : 16 ≤ (a :: rest).length := by
        simp only [List.length_cons] at *
        omega
      rcases List.mem_cons.mp hb with rfl | hb
      · refine ⟨?_, ?_⟩
        · rw [List.length_take]
          simp only [List.length_cons] at *
          omega
        · intro x hx
          exact hbd x (List.take_subset 16 _ hx)
      · refine ih _ ?_ ?_ ?_ b hb
        · simp only [List.length_drop, List.length_cons] at *
          omega
        · simp only [List.length_drop, List.length_cons] at *
          omega
        · intro x hx
          exact hbd x (List.drop_subset 16 _ hx)

theorem toBlocks_flatten_blocks : ∀ bs : List (List Nat), (∀ b ∈ bs, b.length = 16) →
    toBlocks bs.flatten = bs := by
  intro bs
  induction bs with
  | nil => intro _; rfl
  | cons b rest ih =>
    intro h
    have hb : b.length = 16 := h b (List.mem_cons_self _ _)
    cases b with
    | nil => simp at hb
    | cons x xs =>
      rw [List.flatten_cons, List.cons_append, toBlocks_cons]
      have hsh : x :: (xs ++ rest.flatten) = (x :: xs) ++ rest.flatten := rfl
      rw [hsh, ← hb, List.take_left, List.drop_left,
        ih (fun c hc => h c (List.mem_cons_of_mem _ hc))]

theorem xorBytes_length (a b : List Nat) : (xorBytes a b).length = min a.length b.length := by
  simp [xorBytes]

theorem xorBytes_bounded : ∀ (a b : List Nat), ByteBounded a → ByteBounded b →
    ByteBounded (xorBytes a b)
  | [], _, _, _ => by intro x hx; cases hx
  | _ :: _, [], _, _ => by intro x hx; cases hx
  | a :: as, b :: bs, ha, hb => by
    intro x hx
    simp only [xorBytes, List.zipWith_cons_cons] at hx
    rcases List.mem_cons.mp hx with rfl | hx
    · have h1 : a < 2 ^ 8 := ha a (List.mem_cons_self _ _)
      have h2 : b < 2 ^ 8 := hb b (List.mem_cons_self _ _)
      exact Nat.xor_lt_two_pow h1 h2
    · exact xorBytes_bounded as bs (fun y hy => ha y (List.mem_cons_of_mem _ hy))
        (fun y hy => hb y (List.mem_cons_of_mem _ hy)) x hx

theorem xorBytes_xorBytes : ∀ (p b : List Nat), b.length ≤ p.length →
    xorBytes p (xorBytes p b) = b
  | p, [], _ => by simp [xorBytes]
  | [], _ :: _, h => by simp at h
  | q :: ps, x :: xs, h => by
    simp only [xorBytes, List.zipWith_cons_cons]
    rw [Nat.xor_cancel_left]
    congr 1
    exact xorBytes_xorBytes ps xs (by simpa using h)

theorem cbcEncBlocks_props (enc : List Nat → List Nat)
    (henc : ∀ b, b.length = 16 → ByteBounded b → (enc b).length = 16 ∧ ByteBounded (enc b)) :
    ∀ (bs : List (List Nat)) (prev : List Nat), prev.length = 16 → ByteBounded prev →
    (∀ b ∈ bs, b.length = 16 ∧ ByteBounded b) →
    ∀ c ∈ cbcEncBlocks enc prev bs, c.length = 16 ∧ ByteBounded c
  | [], _, _, _, _ => by intro c hc; cases hc
  | b :: rest, prev, hp, hpb, hbs => by
    intro c hc
    have hb := hbs b (List.mem_cons_self _ _)
    have hxlen : (xorBytes prev b).length = 16 := by
      rw [xorBytes_length, hp, hb.1]
      exact Nat.min_self 16
    have hxbd : ByteBounded (xorBytes prev b) := xorBytes_bounded prev b hpb hb.2
    have hc16 := henc _ hxlen hxbd
    simp only [cbcEncBlocks] at hc
    rcases List.mem_cons.mp hc with rfl | hc
    · exact hc16
    · exact cbcEncBlocks_props enc henc rest (enc (xorBytes prev b)) hc16.1 hc16.2
        (fun x hx => hbs x (List.mem_cons_of_mem _ hx)) c hc

theorem cbcDecBlocks_cbcEncBlocks (enc dec : List Nat → List Nat)
    (hinv : ∀ b, dec (enc b) = b)
    (henc : ∀ b, b.length = 16 → ByteBounded b → (enc b).length = 16 ∧ ByteBounded (enc b)) :
    ∀ (bs : List (List Nat)) (prev : List Nat), prev.length = 16 → ByteBounded prev →
    (∀ b ∈ bs, b.length = 16 ∧ ByteBounded b) →
    cbcDecBlocks dec prev (cbcEncBlocks enc prev bs) = bs
  | [], _, _, _, _ => rfl
  | b :: rest, prev, hp, hpb, hbs => by
    have hb := hbs b (List.mem_cons_self _ _)
    have hxlen : (xorBytes prev b).length = 16 := by
      rw [xorBytes_length, hp, hb.1]
      exact Nat.min_self 16
    have hxbd : ByteBounded (xorBytes prev b) := xorBytes_bounded prev b hpb hb.2
    have hc := henc _ hxlen hxbd
    simp only [cbcEncBlocks, cbcDecBlocks]
    rw [hinv]
    congr 1
    · exact xorBytes_xorBytes prev b ((hb.1.trans hp.symm).le)
    · exact cbcDecBlocks_cbcEncBlocks enc dec hinv henc rest _ hc.1 hc.2
        (fun x hx => hbs x (List.mem_cons_of_mem _ hx))

theorem byteBounded_replicate_zero : ByteBounded (List.replicate 16 0) := by
  intro x hx
  have := List.eq_of_mem_replicate hx
  omega

/-- CBC decryption with the inverse block permutation, the same key and the
same IV undoes CBC encryption on any block-aligned bounded byte string. -/
theorem cbcDecryptBytes_cbcEncryptBytes (enc dec : List Nat → List Nat)
    (hinv : ∀ b, dec (enc b) = b)
    (henc : ∀ b, b.length = 16 → ByteBounded b → (enc b).length = 16 ∧ ByteBounded (enc b))
    (data : List Nat) (hmod : data.length % 16 = 0) (hbd : ByteBounded data) :
    cbcDecryptBytes dec (List.replicate 16 0)
      (cbcEncryptBytes enc (List.replicate 16 0) data) = data := by
  have hiv : (List.replicate 16 (0 : Nat)).length = 16 := by simp
  have hblocks := toBlocks_props data.length data le_rfl hmod hbd
  rw [cbcEncryptBytes, cbcDecryptBytes]
  rw [toBlocks_flatten_blocks _ (fun c hc =>
    (cbcEncBlocks_props enc henc (toBlocks data) _ hiv byteBounded_replicate_zero hblocks c hc).1)]
  rw [cbcDecBlocks_cbcEncBlocks enc dec hinv henc (toBlocks data) _ hiv
    byteBounded_replicate_zero hblocks]
  exact flatten_toBlocks data

theorem cbcEncryptBytes_bounded (enc : List Nat → List Nat)
    (henc : ∀ b, b.length = 16 → ByteBounded b → (enc b).length = 16 ∧ ByteBounded (enc b))
    (data : List Nat) (hmod : data.length % 16 = 0) (hbd : ByteBounded data) :
    ByteBounded (cbcEncryptBytes enc (List.replicate 16 0) data) := by
  intro x hx
  rw [cbcEncryptBytes] at hx
  rw [List.mem_flatten] at hx
  obtain ⟨c, hc, hxc⟩ := hx
  have hiv : (List.replicate 16 (0 : Nat)).length = 16 := by simp
  have hblocks := toBlocks_props data.length data le_rfl hmod hbd
  exact (cbcEncBlocks_props enc henc (toBlocks data) _ hiv
    byteBounded_replicate_zero hblocks c hc).2 x hxc

theorem b64CharDec_b64Char_fin : ∀ d : Fin 64,
    b64CharDec (b64Char d.val) = d.val ∧ b64Char d.val ≠ '=' := by decide

theorem b64Char_dec (d : Nat) (h : d < 64) : b64CharDec (b64Char d) = d :=
  (b64CharDec_b64Char_fin ⟨d, h⟩).1

theorem b64Char_ne_eq (d : Nat) (h : d < 64) : b64Char d ≠ '=' :=
  (b64CharDec_b64Char_fin ⟨d, h⟩).2

theorem b64DecodeChars_encode : ∀ bs : List Nat, ByteBounded bs →
    b64DecodeChars (b64EncodeBytes bs) = bs
  | [], _ => rfl
  | [a], h => by
    have ha : a < 256 := h a (List.mem_cons_self _ _)
    simp only [b64EncodeBytes, b64DecodeChars, if_true]
    rw [b64Char_dec _ (by omega), b64Char_dec _ (by omega)]
    simp only [List.cons.injEq, and_true]
    omega
  | [a, b], h => by
    have ha : a < 256 := h a (by simp)
    have hb : b < 256 := h b (by simp)
    have hne2 : b64Char (b % 16 * 4) ≠ '=' := b64Char_ne_eq _ (by omega)
    simp only [b64EncodeBytes, b64DecodeChars, hne2, eq_self_iff_true, if_true, if_false]
    rw [b64Char_dec _ (by omega), b64Char_dec _ (by omega), b64Char_dec _ (by omega)]
    simp only [List.cons.injEq, and_true]
    omega
  | a :: b :: c :: rest, h => by
    have ha : a < 256 := h a (by simp)
    have hb : b < 256 := h b (by simp)
    have hc : c < 256 := h c (by simp)
    have hrest : ByteBounded rest := fun x hx => h x (by simp [hx])
    have hne2 : b64Char (b % 16 * 4 + c / 64) ≠ '=' := b64Char_ne_eq _ (by omega)
    have hne3 : b64Char (c % 64) ≠ '=' := b64Char_ne_eq _ (by omega)
    simp only [b64EncodeBytes, b64DecodeChars, hne2, hne3, eq_self_iff_true, if_true, if_false]
    rw [b64Char_dec _ (by omega), b64Char_dec _ (by omega), b64Char_dec _ (by omega),
      b64Char_dec _ (by omega), b64DecodeChars_encode rest hrest]
    simp only [List.cons.injEq, and_true]
    refine ⟨by omega, by omega, by omega⟩

/-- Base64 decoding undoes base64 encoding on byte lists. -/
theorem b64Decode_b64Encode (bs : List Nat) (h : ByteBounded bs) :
    b64Decode (b64Encode bs) = bs :=
  b64DecodeChars_encode bs h

theorem b64Encode_inj (xs ys : List Nat) (hx : ByteBounded xs) (hy : ByteBounded ys)
    (h : b64Encode xs = b64Encode ys) : xs = ys := by
  have h2 := congrArg b64Decode h
  rwa [b64Decode_b64Encode xs hx, b64Decode_b64Encode ys hy] at h2

theorem dumpPairs_error_of_mem (k : String) (v : PVal) (l : List (String × PVal))
    (h : (k, v) ∈ l) (hv : dumpVal v = .error ()) : dumpPairs l = .error () := by
  induction l with
  | nil => cases h
  | cons e rest ih =>
    rcases List.mem_cons.mp h with heq | hm
    · rw [← heq]
      simp [dumpPairs, hv]
    · obtain ⟨k', v'⟩ := e
      have hr := ih hm
      simp only [dumpPairs, hr]
      cases hvv : dumpVal v' <;> simp

theorem dumpVal_dict_error_of_mem (k : String) (v : PVal) (l : List (String × PVal))
    (h : (k, v) ∈ l) (hv : dumpVal v = .error ()) : dumpVal (.dict l) = .error () := by
  have hp := dumpPairs_error_of_mem k v l h hv
  simp [dumpVal, hp]

/-- `json.dumps` serializes every member of a dict, nulls included: a
successful dump has exactly one `"key":value` fragment per entry. -/
theorem dumpPairs_ok_length : ∀ (l : List (String × PVal)) (ss : List String),
    dumpPairs l = .ok ss → ss.length = l.length := by
  intro l
  induction l with
  | nil =>
    intro ss h
    injection h with h
    rw [← h]
    rfl
  | cons e rest ih =>
    intro ss h
    obtain ⟨k, v⟩ := e
    simp only [dumpPairs] at h
    cases hv : dumpVal v with
    | error er => rw [hv] at h; cases h
    | ok s =>
      rw [hv] at h
      cases hr : dumpPairs rest with
      | error er => rw [hr] at h; cases h
      | ok tl =>
        rw [hr] at h
        injection h with h
        rw [← h]
        simp [ih tl hr]

theorem buildParts_cons_null (k : String) (rest : List (String × PVal)) :
    buildParts ((k, PVal.null) :: rest) = buildParts rest := by
  simp only [buildParts, entryPart]
  cases h : buildParts rest <;> simp

/-- Entries with a null value contribute nothing to the signing parts:
filtering them out of the map leaves `buildParts` unchanged. -/
theorem buildParts_filter_null : ∀ l : List (String × PVal),
    buildParts (l.filter (fun e => !(isNullV e.2))) = buildParts l
  | [] => rfl
  | (k, v) :: rest => by
    by_cases hv : isNullV v = true
    · have hnull : v = PVal.null := by
        cases v <;> simp [isNullV] at hv ⊢
      subst hnull
      rw [List.filter_cons, if_neg (by simp [isNullV]), buildParts_cons_null]
      exact buildParts_filter_null rest
    · rw [List.filter_cons, if_pos (by simp [isNullV] at hv ⊢; cases v <;> simp [isNullV] at hv ⊢)]
      simp only [buildParts, buildParts_filter_null rest]

theorem cryptoData_canon_error (md5 : List Nat → List Nat)
    (aesEnc rsaEnc : List Nat → List Nat → List Nat) (clock : Nat → Int)
    (aesKey oaepSeed : List Nat) (params0 : List (String × PVal)) (apiPath : String)
    (h : canonicalize (assembleParams clock params0 apiPath) = .error ()) :
    cryptoData md5 aesEnc rsaEnc clock aesKey oaepSeed params0 apiPath
      = ⟨.error (), [.clockRead 0], assembleParams clock params0 apiPath⟩ := by
  simp only [cryptoData, h]

theorem cryptoData_dump_error (md5 : List Nat → List Nat)
    (aesEnc rsaEnc : List Nat → List Nat → List Nat) (clock : Nat → Int)
    (aesKey oaepSeed : List Nat) (params0 : List (String × PVal)) (apiPath : String)
    (s : String)
    (hc : canonicalize (assembleParams clock params0 apiPath) = .ok s)
    (hd : dumpVal (.dict (dictSet (assembleParams clock params0 apiPath) "signature"
        (.str (signatureOf md5 SECRET s)))) = .error ()) :
    cryptoData md5 aesEnc rsaEnc clock aesKey oaepSeed params0 apiPath
      = ⟨.error (),
          [.clockRead 0, .keyGen aesKey, .cipherCreate aesKey (List.replicate 16 0)],
          dictSet (assembleParams clock params0 apiPath) "signature"
            (.str (signatureOf md5 SECRET s))⟩ := by
  simp only [cryptoData, hc, hd]

theorem cryptoData_ok (md5 : List Nat → List Nat)
    (aesEnc rsaEnc : List Nat → List Nat → List Nat) (clock : Nat → Int)
    (aesKey oaepSeed : List Nat) (params0 : List (String × PVal)) (apiPath : String)
    (s js : String)
    (hc : canonicalize (assembleParams clock params0 apiPath) = .ok s)
    (hd : dumpVal (.dict (dictSet (assembleParams clock params0 apiPath) "signature"
        (.str (signatureOf md5 SECRET s)))) = .ok js) :
    cryptoData md5 aesEnc rsaEnc clock aesKey oaepSeed params0 apiPath
      = ⟨.ok ⟨b64Encode (rsaEnc oaepSeed aesKey),
            b64Encode (cbcEncryptBytes (aesEnc aesKey) (List.replicate 16 0)
              (padPkcs7 (strToBytes js) 16))⟩,
          [.clockRead 0, .keyGen aesKey, .cipherCreate aesKey (List.replicate 16 0),
            .encrypt, .rsaEncrypt],
          dictSet (assembleParams clock params0 apiPath) "signature"
            (.str (signatureOf md5 SECRET s))⟩ := by
  simp only [cryptoData, hc, hd]

/-- Claim C1: the canonical signing string serializes each non-null entry as
`key=value` (scalars in literal string form, mapping/sequence values as
compact JSON), sorts the collected strings lexicographically by the full
`key=value` string (not by key alone) and joins them with `&`; it is
deterministic and independent of the mapping's insertion order, and both
insertion orders of the mapping a=1, b=2 canonicalize to `a=1&b=2`. The last
conjunct shows the full-pair tie-break: sorting keys `a` and `a=b` by the
whole string puts `a=b=y` before `a=x`. -/
theorem canonicalize_order_independent :
    (∀ l₁ l₂ : List (String × PVal), l₁.Perm l₂ → canonicalize l₁ = canonicalize l₂)
    ∧ canonicalize [("a", PVal.str "1"), ("b", PVal.str "2")] = .ok "a=1&b=2"
    ∧ canonicalize [("b", PVal.str "2"), ("a", PVal.str "1")] = .ok "a=1&b=2"
    ∧ canonicalize [("a", PVal.str "x"), ("a=b", PVal.str "y")] = .ok "a=b=y&a=x" :=
  ⟨canonicalize_perm, rfl, rfl, rfl⟩

/-- Witness for C1 at a concrete pair of permuted maps. -/
theorem canonicalize_order_independent_witness :
    canonicalize [("x", PVal.int 1), ("y", PVal.int 2)]
      = canonicalize [("y", PVal.int 2), ("x", PVal.int 1)] :=
  canonicalize_order_independent.1 _ _ (List.Perm.swap _ _ _)

/-- Claim C5: PKCS7 padding pads to the 16-byte block size, appends a full
extra block when the length is already a multiple of 16 (so the padded
length is determined by the padding bytes alone), and stripping the number
of trailing bytes indicated by the last byte recovers the original bytes
for every input length. -/
theorem pkcs7_pad_roundtrip (data : List Nat) :
    (padPkcs7 data 16).length % 16 = 0
    ∧ (padPkcs7 data 16).length = data.length + (16 - data.length % 16)
    ∧ (data.length % 16 = 0 → padPkcs7 data 16 = data ++ List.replicate 16 16)
    ∧ unpad (padPkcs7 data 16) = data :=
  ⟨padPkcs7_length_mod data, padPkcs7_length data, padPkcs7_full_block data,
    unpad_padPkcs7 data⟩

/-- Witness for C5 on a block-aligned input. -/
theorem pkcs7_pad_roundtrip_witness :
    padPkcs7 (List.replicate 16 7) 16 = List.replicate 16 7 ++ List.replicate 16 16
    ∧ unpad (padPkcs7 (List.replicate 16 7) 16) = List.replicate 16 7 :=
  ⟨(pkcs7_pad_roundtrip (List.replicate 16 7)).2.2.1 (by decide),
    (pkcs7_pad_roundtrip (List.replicate 16 7)).2.2.2⟩

/-- Claim C10: an entry whose value is null is excluded from the canonical
string that is signed (filtering nulls does not change canonicalization),
but it is still serialized — as JSON `null` — into the encrypted payload:
a successful `dumpPairs` emits exactly one fragment per entry, nulls
included. The concrete map a=1, b=null signs only `a=1` while its payload
JSON still carries `"b":null`. -/
theorem null_entries_unsigned_but_serialized :
    (∀ l : List (String × PVal),
      canonicalize (l.filter (fun e => !(isNullV e.2))) = canonicalize l)
    ∧ (∀ (l : List (String × PVal)) (ss : List String),
        dumpPairs l = .ok ss → ss.length = l.length)
    ∧ canonicalize [("a", PVal.int 1), ("b", PVal.null)] = .ok "a=1"
    ∧ dumpVal (.dict [("a", PVal.int 1), ("b", PVal.null)])
        = .ok "\x7b\"a\":1,\"b\":null\x7d" := by
  refine ⟨?_, dumpPairs_ok_length, rfl, rfl⟩
  intro l
  unfold canonicalize
  rw [buildParts_filter_null]

/-- Witness for C10: the singleton null map serializes to one JSON member. -/
theorem null_entries_unsigned_but_serialized_witness :
    (["\"b\":null"] : List String).length = [(("b" : String), PVal.null)].length :=
  null_entries_unsigned_but_serialized.2.1 [("b", PVal.null)] ["\"b\":null"] rfl

/-- Counterexample to claim C2 as stated: with a non-serializable value under
a top-level key (here an unresolvable object under `"x"`), the construction
does raise a serialization error, but the ephemeral key has already been
generated and the CBC cipher already created by the time the error occurs —
the error is not raised before those cryptographic steps. -/
theorem serialization_error_after_keygen_counterexample :
    (cryptoData stubHash stubBlock stubRsa (fun _ => 0) (List.replicate 16 0) []
        [("x", PVal.obj "unresolvable")] "").result = .error ()
    ∧ Event.keyGen (List.replicate 16 0)
        ∈ (cryptoData stubHash stubBlock stubRsa (fun _ => 0) (List.replicate 16 0) []
            [("x", PVal.obj "unresolvable")] "").events
    ∧ Event.cipherCreate (List.replicate 16 0) (List.replicate 16 0)
        ∈ (cryptoData stubHash stubBlock stubRsa (fun _ => 0) (List.replicate 16 0) []
            [("x", PVal.obj "unresolvable")] "").events := by
  refine ⟨rfl, ?_, ?_⟩ <;> decide

/-- Claim C2 (amended): if the parameter map contains an entry whose value
cannot be serialized to JSON — whether the value is itself an unresolvable
object or a mapping/sequence containing one, i.e. whenever `json.dumps`
fails on it — and its key is not overwritten by the injected protocol
fields, the construction raises a serialization error and aborts before any
encryption call and before key wrapping: no envelope and no wrapped key is
produced. The random ephemeral key may already have been generated and the
cipher created (they are whenever the offending value is not itself a
mapping/sequence, as the counterexample above shows). -/
theorem serialization_error_aborts_before_encrypt (md5 : List Nat → List Nat)
    (aesEnc rsaEnc : List Nat → List Nat → List Nat) (clock : Nat → Int)
    (aesKey oaepSeed : List Nat) (params0 : List (String × PVal)) (apiPath : String)
    (k : String) (v : PVal) (hk : (k, v) ∈ params0) (hv : dumpVal v = .error ())
    (h1 : k ≠ "apiPath") (h2 : k ≠ "appId") (h3 : k ≠ "timestamp") (h4 : k ≠ "signature") :
    (cryptoData md5 aesEnc rsaEnc clock aesKey oaepSeed params0 apiPath).result = .error ()
    ∧ Event.encrypt
        ∉ (cryptoData md5 aesEnc rsaEnc clock aesKey oaepSeed params0 apiPath).events
    ∧ Event.rsaEncrypt
        ∉ (cryptoData md5 aesEnc rsaEnc clock aesKey oaepSeed params0 apiPath).events := by
  have hmem3 : (k, v) ∈ assembleParams clock params0 apiPath := by
    unfold assembleParams
    exact mem_dictSet_of_ne _ _ _ h3 (mem_dictSet_of_ne _ _ _ h2 (mem_dictSet_of_ne _ _ _ h1 hk))
  cases hc : canonicalize (assembleParams clock params0 apiPath) with
  | error e =>
    cases e
    rw [cryptoData_canon_error _ _ _ _ _ _ _ _ hc]
    exact ⟨rfl, by simp, by simp⟩
  | ok s =>
    have hmem4 : (k, v) ∈ dictSet (assembleParams clock params0 apiPath)
        "signature" (.str (signatureOf md5 SECRET s)) :=
      mem_dictSet_of_ne _ _ _ h4 hmem3
    have hdump := dumpVal_dict_error_of_mem k v _ hmem4 hv
    rw [cryptoData_dump_error _ _ _ _ _ _ _ _ _ hc hdump]
    exact ⟨rfl, by simp, by simp⟩

/-- Witness for the amended C2 at a concrete run whose non-serializable
value is a sequence containing an unresolvable object — the case where the
serialization failure already surfaces in the signing loop. -/
theorem serialization_error_aborts_before_encrypt_witness :
    (cryptoData stubHash stubBlock stubRsa (fun _ => 0) (List.replicate 16 0) []
        [("y", PVal.list [PVal.obj "bad"])] "").result = .error ()
    ∧ Event.encrypt
        ∉ (cryptoData stubHash stubBlock stubRsa (fun _ => 0) (List.replicate 16 0) []
            [("y", PVal.list [PVal.obj "bad"])] "").events
    ∧ Event.rsaEncrypt
        ∉ (cryptoData stubHash stubBlock stubRsa (fun _ => 0) (List.replicate 16 0) []
            [("y", PVal.list [PVal.obj "bad"])] "").events :=
  serialization_error_aborts_before_encrypt stubHash stubBlock stubRsa (fun _ => 0)
    (List.replicate 16 0) [] [("y", PVal.list [PVal.obj "bad"])] "" "y"
    (PVal.list [PVal.obj "bad"]) (List.Mem.head _) rfl
    (by decide) (by decide) (by decide) (by decide)

/-- Claim C6: every CBC cipher the construction creates uses the fixed IV of
sixteen zero bytes; no run records a cipher creation with any other IV. -/
theorem iv_always_sixteen_zero_bytes (md5 : List Nat → List Nat)
    (aesEnc rsaEnc : List Nat → List Nat → List Nat) (clock : Nat → Int)
    (aesKey oaepSeed : List Nat) (params0 : List (String × PVal)) (apiPath : String) :
    ∀ k iv, Event.cipherCreate k iv
        ∈ (cryptoData md5 aesEnc rsaEnc clock aesKey oaepSeed params0 apiPath).events →
      iv = List.replicate 16 0 := by
  intro k iv hm
  cases hc : canonicalize (assembleParams clock params0 apiPath) with
  | error e =>
    cases e
    rw [cryptoData_canon_error _ _ _ _ _ _ _ _ hc] at hm
    simp at hm
  | ok s =>
    cases hd : dumpVal (.dict (dictSet (assembleParams clock params0 apiPath) "signature"
        (.str (signatureOf md5 SECRET s)))) with
    | error e =>
      cases e
      rw [cryptoData_dump_error _ _ _ _ _ _ _ _ _ hc hd] at hm
      simp at hm
      exact hm.2
    | ok js =>
      rw [cryptoData_ok _ _ _ _ _ _ _ _ _ _ hc hd] at hm
      simp at hm
      exact hm.2

/-- Witness for C6 at a concrete run whose trace contains a cipher creation. -/
theorem iv_always_sixteen_zero_bytes_witness :
    (List.replicate 16 0 : List Nat) = List.replicate 16 0 :=
  iv_always_sixteen_zero_bytes stubHash stubBlock stubRsa (fun _ => 0)
    (List.replicate 16 0) [] [] "" (List.replicate 16 0) (List.replicate 16 0) (by decide)

/-- Claim C4: the signature inserted under `"signature"` before encryption
is the lower-case hex HMAC digest (MD5-based HMAC) of the canonical string,
keyed by the shared secret; the final (encrypted) map is exactly the
assembled map with that one field set, and signing is a pure function of the
(secret, canonical string) pair. -/
theorem signature_is_hmac_md5_of_canonical (md5 : List Nat → List Nat)
    (aesEnc rsaEnc : List Nat → List Nat → List Nat) (clock : Nat → Int)
    (aesKey oaepSeed : List Nat) (params0 : List (String × PVal)) (apiPath : String)
    (s : String)
    (hc : canonicalize (assembleParams clock params0 apiPath) = .ok s) :
    (cryptoData md5 aesEnc rsaEnc clock aesKey oaepSeed params0 apiPath).finalParams
      = dictSet (assembleParams clock params0 apiPath) "signature"
          (.str (hexOfBytes (hmacMd5 md5 (strToBytes SECRET) (strToBytes s))))
    ∧ dictLookup (cryptoData md5 aesEnc rsaEnc clock aesKey oaepSeed params0
          apiPath).finalParams "signature"
      = some (.str (hexOfBytes (hmacMd5 md5 (strToBytes SECRET) (strToBytes s))))
    ∧ (∀ (md5' : List Nat → List Nat) (secret₁ secret₂ msg₁ msg₂ : String),
        secret₁ = secret₂ → msg₁ = msg₂ →
          signatureOf md5' secret₁ msg₁ = signatureOf md5' secret₂ msg₂) := by
  have hfp : (cryptoData md5 aesEnc rsaEnc clock aesKey oaepSeed params0 apiPath).finalParams
      = dictSet (assembleParams clock params0 apiPath) "signature"
          (.str (hexOfBytes (hmacMd5 md5 (strToBytes SECRET) (strToBytes s)))) := by
    cases hd : dumpVal (.dict (dictSet (assembleParams clock params0 apiPath) "signature"
        (.str (signatureOf md5 SECRET s)))) with
    | error e =>
      cases e
      rw [cryptoData_dump_error _ _ _ _ _ _ _ _ _ hc hd]
      rfl
    | ok js =>
      rw [cryptoData_ok _ _ _ _ _ _ _ _ _ _ hc hd]
      rfl
  refine ⟨hfp, ?_, fun md5' s1 s2 m1 m2 e1 e2 => by rw [e1, e2]⟩
  rw [hfp]
  exact dictLookup_dictSet_self _ _ _

/-- Witness for C4 at a concrete run with the canonical string computed. -/
theorem signature_is_hmac_md5_of_canonical_witness :
    dictLookup (cryptoData stubHash stubBlock stubRsa (fun _ => 0)
        (List.replicate 16 0) [] [] "").finalParams "signature"
      = some (.str (hexOfBytes (hmacMd5 stubHash (strToBytes SECRET)
          (strToBytes "apiPath=&appId=API_AUTH_WEB&timestamp=0")))) :=
  (signature_is_hmac_md5_of_canonical stubHash stubBlock stubRsa (fun _ => 0)
    (List.replicate 16 0) [] [] "" "apiPath=&appId=API_AUTH_WEB&timestamp=0" rfl).2.1

theorem buildParts_mem_int (l : List (String × PVal)) (k : String) (n : Int)
    (hm : (k, PVal.int n) ∈ l) :
    ∀ parts, buildParts l = .ok parts → (k ++ "=" ++ toString n) ∈ parts := by
  induction l with
  | nil => cases hm
  | cons e rest ih =>
    intro parts hp
    rcases List.mem_cons.mp hm with heq | hmm
    · rw [← heq] at hp
      simp only [buildParts, entryPart] at hp
      cases hr : buildParts rest with
      | error er => rw [hr] at hp; cases hp
      | ok tl =>
        rw [hr] at hp
        injection hp with hp
        rw [← hp]
        simp
    · obtain ⟨k', v'⟩ := e
      simp only [buildParts] at hp
      cases hep : entryPart (k', v') with
      | error er => rw [hep] at hp; cases hp
      | ok o =>
        rw [hep] at hp
        cases hr : buildParts rest with
        | error er => rw [hr] at hp; cases hp
        | ok tl =>
          rw [hr] at hp
          injection hp with hp
          rw [← hp]
          exact List.mem_append_right _ (ih hmm tl hr)

/-- Claim C7: within one construction the millisecond clock is read exactly
once (the trace holds a single clock-read event, of index 0); the value read
is the `"timestamp"` field of the final map that gets serialized and
encrypted, and the same value appears as the `timestamp=...` part fed into
the signed canonical string. -/
theorem timestamp_captured_once (md5 : List Nat → List Nat)
    (aesEnc rsaEnc : List Nat → List Nat → List Nat) (clock : Nat → Int)
    (aesKey oaepSeed : List Nat) (params0 : List (String × PVal)) (apiPath : String) :
    ((cryptoData md5 aesEnc rsaEnc clock aesKey oaepSeed params0 apiPath).events.filter
        isClockRead = [Event.clockRead 0])
    ∧ dictLookup (cryptoData md5 aesEnc rsaEnc clock aesKey oaepSeed params0
          apiPath).finalParams "timestamp"
      = some (.int (clock 0))
    ∧ (∀ parts, buildParts (assembleParams clock params0 apiPath) = .ok parts →
        ("timestamp=" ++ toString (clock 0)) ∈ parts) := by
  have hmem : ("timestamp", PVal.int (clock 0)) ∈ assembleParams clock params0 apiPath :=
    mem_dictSet_self _ _ _
  refine ⟨?_, ?_, buildParts_mem_int _ _ _ hmem⟩ <;>
  · cases hc : canonicalize (assembleParams clock params0 apiPath) with
    | error e =>
      cases e
      rw [cryptoData_canon_error _ _ _ _ _ _ _ _ hc]
      first
      | rfl
      | exact dictLookup_dictSet_self _ _ _
    | ok s =>
      cases hd : dumpVal (.dict (dictSet (assembleParams clock params0 apiPath) "signature"
          (.str (signatureOf md5 SECRET s)))) with
      | error e =>
        cases e
        rw [cryptoData_dump_error _ _ _ _ _ _ _ _ _ hc hd]
        first
        | rfl
        | rw [dictLookup_dictSet_ne _ _ _ _ (by decide)]
          exact dictLookup_dictSet_self _ _ _
      | ok js =>
        rw [cryptoData_ok _ _ _ _ _ _ _ _ _ _ hc hd]
        first
        | rfl
        | rw [dictLookup_dictSet_ne _ _ _ _ (by decide)]
          exact dictLookup_dictSet_self _ _ _

/-- Witness for C7: at a concrete run the timestamp part is among the signed
parts. -/
theorem timestamp_captured_once_witness :
    ("timestamp=" ++ toString ((fun _ => (0 : Int)) 0))
      ∈ ["apiPath=", "appId=API_AUTH_WEB", "timestamp=0"] :=
  (timestamp_captured_once stubHash stubBlock stubRsa (fun _ => 0)
    (List.replicate 16 0) [] [] "").2.2 ["apiPath=", "appId=API_AUTH_WEB", "timestamp=0"] rfl

theorem set_append_singleton (store : List (List (String × PVal)))
    (p v : List (String × PVal)) :
    (store ++ [p]).set store.length v = store ++ [v] := by
  induction store with
  | nil => rfl
  | cons a rest ih => simp [List.set, ih]

theorem getD_append_left (store : List (List (String × PVal)))
    (v : List (String × PVal)) (ref : Nat) (h : ref < store.length) :
    (store ++ [v]).getD ref [] = store.getD ref [] := by
  simp [List.getD, List.getElem?_append, h]

theorem getD_append_self (store : List (List (String × PVal)))
    (v : List (String × PVal)) :
    (store ++ [v]).getD store.length [] = v := by
  simp [List.getD, List.getElem?_append_right (Nat.le_refl store.length)]

theorem finalParams_appId (md5 : List Nat → List Nat)
    (aesEnc rsaEnc : List Nat → List Nat → List Nat) (clock : Nat → Int)
    (aesKey oaepSeed : List Nat) (params0 : List (String × PVal)) (apiPath : String) :
    dictLookup (cryptoData md5 aesEnc rsaEnc clock aesKey oaepSeed params0
        apiPath).finalParams "appId" = some (.str APP_ID) := by
  have hassem : dictLookup (assembleParams clock params0 apiPath) "appId"
      = some (.str APP_ID) := by
    unfold assembleParams
    rw [dictLookup_dictSet_ne _ _ _ _ (by decide)]
    exact dictLookup_dictSet_self _ _ _
  cases hc : canonicalize (assembleParams clock params0 apiPath) with
  | error e =>
    cases e
    rw [cryptoData_canon_error _ _ _ _ _ _ _ _ hc]
    exact hassem
  | ok s =>
    have hsig : dictLookup (dictSet (assembleParams clock params0 apiPath) "signature"
        (.str (signatureOf md5 SECRET s))) "appId" = some (.str APP_ID) := by
      rw [dictLookup_dictSet_ne _ _ _ _ (by decide)]
      exact hassem
    cases hd : dumpVal (.dict (dictSet (assembleParams clock params0 apiPath) "signature"
        (.str (signatureOf md5 SECRET s)))) with
    | error e =>
      cases e
      rw [cryptoData_dump_error _ _ _ _ _ _ _ _ _ hc hd]
      exact hsig
    | ok js =>
      rw [cryptoData_ok _ _ _ _ _ _ _ _ _ _ hc hd]
      exact hsig

/-- Claim C9: `_send_request` hands `_crypto_data` a shallow copy of the
caller's payload dict, so after the call the caller's dict still holds
exactly its original entries, while the copy ends up mutated (holding the
injected fields — e.g. its `appId` is set). -/
theorem send_request_shields_caller_payload (md5 : List Nat → List Nat)
    (aesEnc rsaEnc : List Nat → List Nat → List Nat) (clock : Nat → Int)
    (aesKey oaepSeed : List Nat) (store : List (List (String × PVal)))
    (ref : Nat) (apiPath : String) (href : ref < store.length) :
    ((sendRequestStore md5 aesEnc rsaEnc clock aesKey oaepSeed store ref apiPath).2).getD
        ref [] = store.getD ref []
    ∧ ((sendRequestStore md5 aesEnc rsaEnc clock aesKey oaepSeed store ref apiPath).2).getD
        store.length []
      = (cryptoData md5 aesEnc rsaEnc clock aesKey oaepSeed (store.getD ref [])
          apiPath).finalParams
    ∧ dictLookup (cryptoData md5 aesEnc rsaEnc clock aesKey oaepSeed (store.getD ref [])
        apiPath).finalParams "appId" = some (.str APP_ID) := by
  refine ⟨?_, ?_, finalParams_appId _ _ _ _ _ _ _ _⟩
  · simp only [sendRequestStore]
    rw [set_append_singleton]
    exact getD_append_left _ _ _ href
  · simp only [sendRequestStore]
    rw [set_append_singleton]
    exact getD_append_self _ _

/-- Witness for C9 at a concrete one-dict heap. -/
theorem send_request_shields_caller_payload_witness :
    ((sendRequestStore stubHash stubBlock stubRsa (fun _ => 0) (List.replicate 16 0) []
        [[("a", PVal.int 1)]] 0 "").2).getD 0 []
      = ([[("a", PVal.int 1)]].getD 0 []) :=
  (send_request_shields_caller_payload stubHash stubBlock stubRsa (fun _ => 0)
    (List.replicate 16 0) [] [[("a", PVal.int 1)]] 0 "" (by decide)).1

theorem cryptoData_ok_key (md5 : List Nat → List Nat)
    (aesEnc rsaEnc : List Nat → List Nat → List Nat) (clock : Nat → Int)
    (aesKey oaepSeed : List Nat) (params0 : List (String × PVal)) (apiPath : String)
    (env : Envelope)
    (h : (cryptoData md5 aesEnc rsaEnc clock aesKey oaepSeed params0 apiPath).result
      = .ok env) :
    env.key = b64Encode (rsaEnc oaepSeed aesKey) := by
  cases hc : canonicalize (assembleParams clock params0 apiPath) with
  | error e =>
    cases e
    rw [cryptoData_canon_error _ _ _ _ _ _ _ _ hc] at h
    cases h
  | ok s =>
    cases hd : dumpVal (.dict (dictSet (assembleParams clock params0 apiPath) "signature"
        (.str (signatureOf md5 SECRET s)))) with
    | error e =>
      cases e
      rw [cryptoData_dump_error _ _ _ _ _ _ _ _ _ hc hd] at h
      cases h
    | ok js =>
      rw [cryptoData_ok _ _ _ _ _ _ _ _ _ _ hc hd] at h
      injection h with h
      rw [← h]

/-- Claim C8: wrapping the same 16-byte ephemeral key in two constructions
that use different OAEP randomness produces different `"key"` fields (OAEP
encryption embeds its seed recoverably, so it is injective in the seed),
while OAEP decryption of either base64-decoded `"key"` field returns the
identical original key. The OAEP contract is taken as hypotheses on the
abstract primitive. -/
theorem oaep_rewrap_distinct_ciphertexts (md5 : List Nat → List Nat)
    (aesEnc rsaEnc : List Nat → List Nat → List Nat)
    (rsaDec : List Nat → Option (List Nat)) (clock : Nat → Int)
    (aesKey s₁ s₂ : List Nat) (params0 : List (String × PVal)) (apiPath : String)
    (env₁ env₂ : Envelope)
    (hs : s₁ ≠ s₂)
    (hinj : rsaEnc s₁ aesKey = rsaEnc s₂ aesKey → s₁ = s₂)
    (hdec₁ : rsaDec (rsaEnc s₁ aesKey) = some aesKey)
    (hdec₂ : rsaDec (rsaEnc s₂ aesKey) = some aesKey)
    (hb₁ : ByteBounded (rsaEnc s₁ aesKey))
    (hb₂ : ByteBounded (rsaEnc s₂ aesKey))
    (h₁ : (cryptoData md5 aesEnc rsaEnc clock aesKey s₁ params0 apiPath).result = .ok env₁)
    (h₂ : (cryptoData md5 aesEnc rsaEnc clock aesKey s₂ params0 apiPath).result = .ok env₂) :
    env₁.key ≠ env₂.key
    ∧ rsaDec (b64Decode env₁.key) = some aesKey
    ∧ rsaDec (b64Decode env₂.key) = some aesKey := by
  have hk₁ := cryptoData_ok_key md5 aesEnc rsaEnc clock aesKey s₁ params0 apiPath env₁ h₁
  have hk₂ := cryptoData_ok_key md5 aesEnc rsaEnc clock aesKey s₂ params0 apiPath env₂ h₂
  refine ⟨?_, ?_, ?_⟩
  · intro hEq
    rw [hk₁, hk₂] at hEq
    exact hs (hinj (b64Encode_inj _ _ hb₁ hb₂ hEq))
  · rw [hk₁, b64Decode_b64Encode _ hb₁]
    exact hdec₁
  · rw [hk₂, b64Decode_b64Encode _ hb₂]
    exact hdec₂

/-- Witness for C8: two concrete runs wrapping the same key under seeds
`[0]` and `[1]`. -/
theorem oaep_rewrap_distinct_ciphertexts_witness :
    (okEnvelope demoOutcomeSeedA).key ≠ (okEnvelope demoOutcomeSeedB).key
    ∧ stubRsaDec (b64Decode (okEnvelope demoOutcomeSeedA).key)
        = some (List.replicate 16 0)
    ∧ stubRsaDec (b64Decode (okEnvelope demoOutcomeSeedB).key)
        = some (List.replicate 16 0) :=
  oaep_rewrap_distinct_ciphertexts stubHash stubBlock stubRsa stubRsaDec (fun _ => 0)
    (List.replicate 16 0) [0] [1] [] "" (okEnvelope demoOutcomeSeedA)
    (okEnvelope demoOutcomeSeedB) (by decide) (fun h => absurd h (by decide))
    rfl rfl (by unfold ByteBounded; decide) (by unfold ByteBounded; decide) rfl rfl

/-- Claim C3: CBC-decrypting the base64-decoded `"data"` field of a
successful envelope with the same ephemeral key (via the inverse block
permutation) and the fixed 16-zero-byte IV yields exactly the PKCS7-padded
compact JSON serialization of the full final parameter map — the map that
includes the injected `"signature"` field; that JSON preserves the map's own
key order (the last conjunct shows a map serialized without re-sorting). -/
theorem cbc_decrypt_data_is_padded_json (md5 : List Nat → List Nat)
    (aesEnc : List Nat → List Nat → List Nat) (aesDec : List Nat → List Nat)
    (rsaEnc : List Nat → List Nat → List Nat) (clock : Nat → Int)
    (aesKey oaepSeed : List Nat) (params0 : List (String × PVal)) (apiPath : String)
    (env : Envelope) (js : String)
    (hinv : ∀ b, aesDec (aesEnc aesKey b) = b)
    (henc : ∀ b, b.length = 16 → ByteBounded b →
      (aesEnc aesKey b).length = 16 ∧ ByteBounded (aesEnc aesKey b))
    (hres : (cryptoData md5 aesEnc rsaEnc clock aesKey oaepSeed params0 apiPath).result
      = .ok env)
    (hjs : dumpVal (.dict (cryptoData md5 aesEnc rsaEnc clock aesKey oaepSeed params0
        apiPath).finalParams) = .ok js) :
    cbcDecryptBytes aesDec (List.replicate 16 0) (b64Decode env.data)
      = padPkcs7 (strToBytes js) 16
    ∧ dumpVal (.dict [("b", PVal.int 2), ("a", PVal.int 1)])
        = .ok "\x7b\"b\":2,\"a\":1\x7d" := by
  refine ⟨?_, rfl⟩
  cases hc : canonicalize (assembleParams clock params0 apiPath) with
  | error e =>
    cases e
    rw [cryptoData_canon_error _ _ _ _ _ _ _ _ hc] at hres
    cases hres
  | ok s =>
    cases hd : dumpVal (.dict (dictSet (assembleParams clock params0 apiPath) "signature"
        (.str (signatureOf md5 SECRET s)))) with
    | error e =>
      cases e
      rw [cryptoData_dump_error _ _ _ _ _ _ _ _ _ hc hd] at hres
      cases hres
    | ok js' =>
      have hout := cryptoData_ok md5 aesEnc rsaEnc clock aesKey oaepSeed params0 apiPath
        s js' hc hd
      rw [hout] at hres hjs
      injection hres with hres
      rw [hd] at hjs
      injection hjs with hjs
      rw [← hres, ← hjs]
      show cbcDecryptBytes aesDec (List.replicate 16 0)
        (b64Decode (b64Encode (cbcEncryptBytes (aesEnc aesKey) (List.replicate 16 0)
          (padPkcs7 (strToBytes js') 16))))
        = padPkcs7 (strToBytes js') 16
      have hbound : ByteBounded (cbcEncryptBytes (aesEnc aesKey) (List.replicate 16 0)
          (padPkcs7 (strToBytes js') 16)) :=
        cbcEncryptBytes_bounded _ henc _ (padPkcs7_length_mod _)
          (padPkcs7_bounded _ (strToBytes_bounded js'))
      rw [b64Decode_b64Encode _ hbound]
      exact cbcDecryptBytes_cbcEncryptBytes _ _ hinv henc _ (padPkcs7_length_mod _)
        (padPkcs7_bounded _ (strToBytes_bounded js'))

/-- Witness for C3 at a concrete run with identity block permutation. -/
theorem cbc_decrypt_data_is_padded_json_witness :
    cbcDecryptBytes stubBlockDec (List.replicate 16 0)
        (b64Decode (okEnvelope demoOutcomeSeedA).data)
      = padPkcs7 (strToBytes (okString (dumpVal (.dict demoOutcomeSeedA.finalParams)))) 16 :=
  (cbc_decrypt_data_is_padded_json stubHash stubBlock stubBlockDec stubRsa (fun _ => 0)
    (List.replicate 16 0) [0] [] "" (okEnvelope demoOutcomeSeedA)
    (okString (dumpVal (.dict demoOutcomeSeedA.finalParams)))
    (fun _ => rfl) (fun _ hl hb => ⟨hl, hb⟩) rfl rfl).1
